import Mathlib

/-!
Verification of `src/include/mapnik/feature.hpp` (mapnik feature/context core).

The schema (`mapnik::context`) stores its name-to-slot mapping in a
`std::map<std::string, std::size_t>`: an ordered associative container kept
sorted by key, whose `insert` member does not overwrite an existing key.
We embed it as an association list `List (String × Nat)` kept sorted by key,
with `mapInsert` mirroring `std::map::insert` and `mapFind` mirroring
`std::map::find`.

The feature record (`mapnik::feature_impl`) is embedded as a structure with
the same fields; `put` (which in C++ either mutates `data_` or throws
`std::out_of_range`) is embedded as a function returning the record after the
call together with the thrown message, and `get` returns `Except`.

Types that `feature.hpp` only uses through their interfaces
(`mapnik::value`, `box2d`, `geometry_type`, `raster`) live in headers outside
this unit and are modelled from the spec, as marked on each definition.
-/

namespace Mapnik

/-- Modelled from the spec: `mapnik::value` (from `mapnik/value.hpp`, not part
of this unit) is a tagged union holding null, boolean, integer, floating-point
or text, with equality and a deterministic text rendering; default
construction yields the null representation. Floating-point values are
modelled over `Rat`. -/
inductive value where
  | null : value
  | boolean : Bool → value
  | integer : Int → value
  | floating : Rat → value
  | text : String → value
deriving DecidableEq, Repr

/-- Modelled from the spec: the deterministic text rendering of a value, used
by the debug representation. -/
def value.render : value → String
  | value.null => "null"
  | value.boolean b => if b then "true" else "false"
  | value.integer i => toString i
  | value.floating q => toString q
  | value.text s => s

/-- Modelled from the spec: an axis-aligned rectangle with numeric
coordinates (the valid payload of a `box2d<double>`), over `Rat`. -/
structure rect where
  minx : Rat
  miny : Rat
  maxx : Rat
  maxy : Rat
deriving DecidableEq, Repr

/-- Modelled from the spec: `box2d<double>` (from `mapnik/geometry.hpp`, not
part of this unit); a default-constructed box is the explicit
"empty/uninitialized" sentinel, distinct from every valid rectangle. -/
inductive box2d where
  | uninit : box2d
  | rect : rect → box2d
deriving DecidableEq, Repr

/-- Modelled from the spec: `box2d::init(minx,miny,maxx,maxy)` makes the box
the given valid rectangle. -/
def box2d.init (x0 y0 x1 y1 : Rat) : box2d :=
  box2d.rect ⟨x0, y0, x1, y1⟩

/-- Union of two valid rectangles. -/
def rect.union (a b : rect) : rect :=
  ⟨min a.minx b.minx, min a.miny b.miny, max a.maxx b.maxx, max a.maxy b.maxy⟩

/-- Modelled from the spec: `box2d::expand_to_include` grows the box to the
union with the other box. -/
def box2d.expand_to_include : box2d → box2d → box2d
  | box2d.uninit, other => other
  | box2d.rect a, box2d.uninit => box2d.rect a
  | box2d.rect a, box2d.rect b => box2d.rect (a.union b)

/-- Modelled from the spec: the concrete geometry type is out of scope; it
must expose its own axis-aligned bounding box (`envelope`). We record that
box directly. -/
structure geometry_type where
  env : rect
deriving DecidableEq, Repr

/-- Modelled from the spec: `geometry_type::envelope()` returns the
geometry's own (valid) bounding box. -/
def geometry_type.envelope (g : geometry_type) : box2d :=
  box2d.rect g.env

/-- Modelled from the spec: the raster payload is opaque and shared by
reference; we track it as a tagged token. -/
structure raster where
  tag : Nat
deriving DecidableEq, Repr

/-- Embeds `typedef std::map<key_type,std::size_t> map_type`: an association
list kept sorted by key (the `std::map` invariant). -/
abbrev map_type : Type := List (String × Nat)

/-- A kernel-reducible decision procedure for the standard string order
(`std::less<std::string>` is the same lexicographic order), so that concrete
schema computations evaluate inside proofs. -/
instance (priority := 10000) decLtStr (a b : String) : Decidable (a < b) :=
  decidable_of_iff (a.toList < b.toList) String.lt_iff_toList_lt.symm

/-- Embeds `std::map::insert(std::make_pair(k, v))`: inserts at the sorted
position; if the key is already present the map is left unchanged (insert
does not overwrite). -/
def mapInsert (m : map_type) (k : String) (v : Nat) : map_type :=
  match m with
  | [] => [(k, v)]
  | (k1, v1) :: rest =>
    if k < k1 then (k, v) :: (k1, v1) :: rest
    else if k = k1 then (k1, v1) :: rest
    else (k1, v1) :: mapInsert rest k v

/-- Embeds `std::map::find(k)` followed by the `itr != end()` test and
`itr->second`: the slot bound to `k`, if present. -/
def mapFind (m : map_type) (k : String) : Option Nat :=
  match m with
  | [] => none
  | (k1, v1) :: rest => if k = k1 then some v1 else mapFind rest k

/-- The sortedness invariant that `std::map` maintains on its entries. -/
def SortedKeys (m : map_type) : Prop :=
  List.Pairwise (fun p q : String × Nat => p.1 < q.1) m

/-- Embeds `class context`: owns the `mapping_` from attribute name to slot. -/
structure context where
  mapping_ : map_type
deriving DecidableEq

/-- Embeds `context::context()`: an empty mapping. -/
def context.empty : context := ⟨[]⟩

/-- Embeds `context::push(name)`:
`mapping_.insert(std::make_pair(name, mapping_.size()))`. -/
def context.push (ctx : context) (name : String) : context :=
  ⟨mapInsert ctx.mapping_ name ctx.mapping_.length⟩

/-- Embeds `context::size()`. -/
def context.size (ctx : context) : Nat := ctx.mapping_.length

/-- Registers a list of names in order on a fresh context (the producer
boundary of the spec: one `push` per column name). -/
def registerAll (names : List String) : context :=
  names.foldl context.push context.empty

/-- Embeds `class feature_impl` (fields in the declaration order of the
source: `id_`, `ctx_`, `geom_cont_`, `raster_`, `data_`). -/
structure feature_impl where
  id_ : Int
  ctx_ : context
  geom_cont_ : List geometry_type
  raster_ : Option raster
  data_ : List value
deriving DecidableEq

/-- Embeds the constructor `feature_impl(context_ptr const& ctx, int id)`:
`id_(id), ctx_(ctx), data_(ctx_->mapping_.size())` — the value vector has one
default-constructed (null) value per current schema slot. -/
def feature_impl.new (ctx : context) (id : Int) : feature_impl :=
  ⟨id, ctx, [], none, List.replicate ctx.mapping_.length value.null⟩

/-- Embeds `feature_impl::id()`. -/
def feature_impl.id (f : feature_impl) : Int := f.id_

/-- Embeds `feature_impl::set_id(id)`. -/
def feature_impl.set_id (f : feature_impl) (id : Int) : feature_impl :=
  { f with id_ := id }

/-- The message of the `std::out_of_range` thrown by `put` and `get`. -/
def keyNotFound : String := "Key doesn't exist"

/-- Embeds `feature_impl::put(key, val)`: looks `key` up in the shared
schema; when found with slot below `data_.size()` overwrites that slot,
otherwise throws. Returns the record after the call (unchanged when the call
throws) paired with the thrown message, mirroring C++ exception semantics. -/
def feature_impl.put (f : feature_impl) (key : String) (val : value) :
    feature_impl × Option String :=
  match mapFind f.ctx_.mapping_ key with
  | some slot =>
    if slot < f.data_.length then
      ({ f with data_ := f.data_.set slot val }, none)
    else
      (f, some keyNotFound)
  | none => (f, some keyNotFound)

/-- Embeds `feature_impl::has_key(key)`: whether the schema contains the
name, with no range test against `data_`. -/
def feature_impl.has_key (f : feature_impl) (key : String) : Bool :=
  (mapFind f.ctx_.mapping_ key).isSome

/-- Embeds `feature_impl::get(key)`: the stored value when the key resolves
to a slot below `data_.size()`, otherwise the thrown `std::out_of_range`. -/
def feature_impl.get (f : feature_impl) (key : String) : Except String value :=
  match mapFind f.ctx_.mapping_ key with
  | some slot =>
    if h : slot < f.data_.length then
      Except.ok (f.data_.get ⟨slot, h⟩)
    else
      Except.error keyNotFound
  | none => Except.error keyNotFound

/-- Embeds `feature_impl::size()`: the length of the value vector. -/
def feature_impl.size (f : feature_impl) : Nat := f.data_.length

/-- Embeds `feature_impl::add_geometry(geom)`: appends to `geom_cont_`. -/
def feature_impl.add_geometry (f : feature_impl) (g : geometry_type) :
    feature_impl :=
  { f with geom_cont_ := f.geom_cont_ ++ [g] }

/-- Embeds `feature_impl::num_geometries()`. -/
def feature_impl.num_geometries (f : feature_impl) : Nat :=
  f.geom_cont_.length

/-- Embeds `feature_impl::set_raster(raster)`. -/
def feature_impl.set_raster (f : feature_impl) (r : raster) : feature_impl :=
  { f with raster_ := some r }

/-- Embeds `feature_impl::get_raster()`. -/
def feature_impl.get_raster (f : feature_impl) : Option raster := f.raster_

/-- Embeds `feature_impl::envelope()`: a default-constructed (uninitialized)
`box2d` when there are no geometries; otherwise the loop initializes the
accumulator from the first geometry's envelope (`result.init(box.minx(), ...)`
at `i == 0`) and calls `expand_to_include` for each later geometry. -/
def feature_impl.envelope (f : feature_impl) : box2d :=
  match f.geom_cont_ with
  | [] => box2d.uninit
  | g :: gs =>
    gs.foldl (fun result h => result.expand_to_include h.envelope)
      (box2d.init g.env.minx g.env.miny g.env.maxx g.env.maxy)

/-- Embeds the body of the `to_string` loop: one `"  " << name << ":" <<
value << std::endl` line per mapping entry, in the map's iteration order.
The C++ loop indexes `data_[itr->second]` with no range test — a slot at or
beyond `data_.size()` is an out-of-range `std::vector::operator[]` access
(undefined behavior), which we model as `none`. -/
def renderLines (data_ : List value) : map_type → Option String
  | [] => some ""
  | (k, slot) :: rest =>
    match data_.get? slot with
    | some v =>
      (renderLines data_ rest).map
        (fun s => "  " ++ k ++ ":" ++ v.render ++ "\n" ++ s)
    | none => none

/-- Embeds `feature_impl::to_string()`: `"Feature ("`, the per-entry lines in
map iteration order, then `")"`; `none` when the loop would index `data_`
out of range (undefined behavior in the C++). -/
def feature_impl.to_string (f : feature_impl) : Option String :=
  (renderLines f.data_ f.ctx_.mapping_).map
    (fun body => "Feature (\n" ++ body ++ ")\n")

/-- Models registering a further name on the schema after a record was
constructed: the record holds the context by `shared_ptr`, so a `push` on the
shared context is visible through the record's `ctx_`. -/
def growSchema (f : feature_impl) (name : String) : feature_impl :=
  { f with ctx_ := f.ctx_.push name }

/-- Insertion step for sorting schema entries by slot (registration order). -/
def insertBySlot (p : String × Nat) : map_type → map_type
  | [] => [p]
  | q :: rest => if p.2 ≤ q.2 then p :: q :: rest else q :: insertBySlot p rest

/-- Sorts schema entries by slot; since slots are assigned in registration
order, this recovers registration order from the name-sorted map. -/
def sortBySlot : map_type → map_type
  | [] => []
  | p :: rest => insertBySlot p (sortBySlot rest)

/-- Formalises the words of claim C5 (what the spec says `describe` renders),
not the source: one newline-separated `name: value` line per registered
attribute in schema registration order (entries taken in ascending slot
order), and only for names whose resolved slot is within the record's
value-sequence length. -/
def specDescribe (f : feature_impl) : String :=
  String.join
    (((sortBySlot f.ctx_.mapping_).filter (fun p => p.2 < f.data_.length)).map
      (fun p => p.1 ++ ": " ++ (f.data_.getD p.2 value.null).render ++ "\n"))

/-- The containment order on valid rectangles: `a.contains b` when `b` lies
inside `a`. Used to state that an envelope is the least rectangle covering
the geometries. -/
def rect.contains (a b : rect) : Prop :=
  a.minx ≤ b.minx ∧ a.miny ≤ b.miny ∧ b.maxx ≤ a.maxx ∧ b.maxy ≤ a.maxy

instance (a b : rect) : Decidable (a.contains b) := by
  unfold rect.contains
  infer_instance

/-- The map-level form of `context::push`. -/
def pushMap (m : map_type) (n : String) : map_type :=
  mapInsert m n m.length

/-- The map-level form of a sequence of `context::push` calls. -/
def foldPush (m : map_type) (names : List String) : map_type :=
  names.foldl pushMap m

/-- The invariant `std::map` and the push discipline maintain: entries sorted
by key, and every bound slot below the map's size. -/
def InvMap (m : map_type) : Prop :=
  SortedKeys m ∧ ∀ p ∈ m, p.2 < m.length

/-!  Lemmas about `mapInsert` and `mapFind`. -/

theorem mem_insert (m : map_type) (k : String) (v : Nat) :
    ∀ q ∈ mapInsert m k v, q = (k, v) ∨ q ∈ m := by
  induction m with
  | nil =>
    intro q hq
    simp only [mapInsert] at hq
    simp at hq
    exact Or.inl hq
  | cons p rest ih =>
    obtain ⟨k1, v1⟩ := p
    intro q hq
    simp only [mapInsert] at hq
    by_cases h2 : k < k1
    · rw [if_pos h2] at hq
      rcases List.mem_cons.mp hq with hq1 | hq1
      · exact Or.inl hq1
      · exact Or.inr hq1
    · rw [if_neg h2] at hq
      by_cases h1 : k = k1
      · rw [if_pos h1] at hq
        exact Or.inr hq
      · rw [if_neg h1] at hq
        rcases List.mem_cons.mp hq with hq1 | hq1
        · exact Or.inr (by simp [hq1])
        · rcases ih q hq1 with hq2 | hq2
          · exact Or.inl hq2
          · exact Or.inr (List.mem_cons_of_mem _ hq2)

theorem mapFind_insert_self (m : map_type) (k : String) (v : Nat)
    (hk : mapFind m k = none) : mapFind (mapInsert m k v) k = some v := by
  induction m with
  | nil =>
    simp [mapInsert, mapFind]
  | cons p rest ih =>
    obtain ⟨k1, v1⟩ := p
    simp only [mapFind] at hk
    by_cases h1 : k = k1
    · rw [if_pos h1] at hk
      exact absurd hk (by simp)
    · rw [if_neg h1] at hk
      simp only [mapInsert]
      by_cases h2 : k < k1
      · rw [if_pos h2]
        simp [mapFind]
      · rw [if_neg h2, if_neg h1]
        simp only [mapFind]
        rw [if_neg h1]
        exact ih hk

theorem find_insert_self_isSome (m : map_type) (k : String) (v : Nat) :
    (mapFind (mapInsert m k v) k).isSome = true := by
  induction m with
  | nil =>
    simp [mapInsert, mapFind]
  | cons p rest ih =>
    obtain ⟨k1, v1⟩ := p
    simp only [mapInsert]
    by_cases h2 : k < k1
    · rw [if_pos h2]
      simp [mapFind]
    · rw [if_neg h2]
      by_cases h1 : k = k1
      · rw [if_pos h1]
        simp [mapFind, h1]
      · rw [if_neg h1]
        simp only [mapFind]
        rw [if_neg h1]
        exact ih

theorem mapFind_insert_ne (m : map_type) (k k2 : String) (v : Nat)
    (h : k ≠ k2) : mapFind (mapInsert m k v) k2 = mapFind m k2 := by
  induction m with
  | nil =>
    simp only [mapInsert, mapFind]
    rw [if_neg (fun hh => h hh.symm)]
  | cons p rest ih =>
    obtain ⟨k1, v1⟩ := p
    simp only [mapInsert]
    by_cases h2 : k < k1
    · rw [if_pos h2]
      simp only [mapFind]
      rw [if_neg (fun hh => h hh.symm)]
    · rw [if_neg h2]
      by_cases h1 : k = k1
      · rw [if_pos h1]
      · rw [if_neg h1]
        simp only [mapFind]
        by_cases h3 : k2 = k1
        · rw [if_pos h3, if_pos h3]
        · rw [if_neg h3, if_neg h3]
          exact ih

theorem mapFind_mem (m : map_type) (k : String) (s : Nat)
    (h : mapFind m k = some s) : (k, s) ∈ m := by
  induction m with
  | nil => simp [mapFind] at h
  | cons p rest ih =>
    obtain ⟨k1, v1⟩ := p
    simp only [mapFind] at h
    by_cases h1 : k = k1
    · rw [if_pos h1] at h
      subst h1
      simp at h
      simp [h]
    · rw [if_neg h1] at h
      exact List.mem_cons_of_mem _ (ih h)

theorem mapInsert_of_mem (m : map_type) (k : String) (v s : Nat)
    (hs : SortedKeys m) (h : mapFind m k = some s) : mapInsert m k v = m := by
  induction m with
  | nil => simp [mapFind] at h
  | cons p rest ih =>
    obtain ⟨k1, v1⟩ := p
    simp only [mapFind] at h
    by_cases h1 : k = k1
    · simp only [mapInsert]
      rw [if_neg (by rw [h1]; exact lt_irrefl k1), if_pos h1]
    · rw [if_neg h1] at h
      have hkr : (k, s) ∈ rest := mapFind_mem rest k s h
      have hlt : k1 < k := (List.pairwise_cons.mp hs).1 (k, s) hkr
      have hnlt : ¬ k < k1 := fun hc => absurd (lt_trans hc hlt) (lt_irrefl k)
      simp only [mapInsert]
      rw [if_neg hnlt, if_neg h1, ih (List.pairwise_cons.mp hs).2 h]

theorem sortedKeys_insert (m : map_type) (k : String) (v : Nat)
    (hs : SortedKeys m) : SortedKeys (mapInsert m k v) := by
  induction m with
  | nil =>
    simp only [mapInsert]
    exact List.pairwise_singleton _ _
  | cons p rest ih =>
    obtain ⟨k1, v1⟩ := p
    have hs1 := List.pairwise_cons.mp hs
    simp only [mapInsert]
    by_cases h2 : k < k1
    · rw [if_pos h2]
      refine List.pairwise_cons.mpr ⟨?_, hs⟩
      intro q hq
      rcases List.mem_cons.mp hq with hq1 | hq1
      · rw [hq1]
        exact h2
      · exact lt_trans h2 (hs1.1 q hq1)
    · rw [if_neg h2]
      by_cases h1 : k = k1
      · rw [if_pos h1]
        exact hs
      · rw [if_neg h1]
        have hlt : k1 < k := by
          rcases lt_trichotomy k k1 with hc | hc | hc
          · exact absurd hc h2
          · exact absurd hc h1
          · exact hc
        refine List.pairwise_cons.mpr ⟨?_, ih hs1.2⟩
        intro q hq
        rcases mem_insert rest k v q hq with hq1 | hq1
        · rw [hq1]
          exact hlt
        · exact hs1.1 q hq1

theorem mapInsert_perm (m : map_type) (k : String) (v : Nat)
    (hk : mapFind m k = none) : (mapInsert m k v).Perm ((k, v) :: m) := by
  induction m with
  | nil => simp [mapInsert]
  | cons p rest ih =>
    obtain ⟨k1, v1⟩ := p
    simp only [mapFind] at hk
    by_cases h1 : k = k1
    · rw [if_pos h1] at hk
      exact absurd hk (by simp)
    · rw [if_neg h1] at hk
      simp only [mapInsert]
      by_cases h2 : k < k1
      · rw [if_pos h2]
      · rw [if_neg h2, if_neg h1]
        exact ((ih hk).cons _).trans (List.Perm.swap _ _ _)

theorem length_mapInsert_of_none (m : map_type) (k : String) (v : Nat)
    (hk : mapFind m k = none) : (mapInsert m k v).length = m.length + 1 := by
  rw [(mapInsert_perm m k v hk).length_eq]
  rfl

theorem length_le_mapInsert (m : map_type) (k : String) (v : Nat) :
    m.length ≤ (mapInsert m k v).length := by
  induction m with
  | nil => simp [mapInsert]
  | cons p rest ih =>
    obtain ⟨k1, v1⟩ := p
    simp only [mapInsert]
    by_cases h2 : k < k1
    · rw [if_pos h2]
      simp
    · rw [if_neg h2]
      by_cases h1 : k = k1
      · rw [if_pos h1]
      · rw [if_neg h1]
        simpa using ih

theorem mapFind_of_mem_sorted (m : map_type) (k : String) (s : Nat)
    (hs : SortedKeys m) (h : (k, s) ∈ m) : mapFind m k = some s := by
  induction m with
  | nil => simp at h
  | cons p rest ih =>
    obtain ⟨k1, v1⟩ := p
    have hs1 := List.pairwise_cons.mp hs
    simp only [mapFind]
    rcases List.mem_cons.mp h with h0 | h0
    · rw [Prod.mk.injEq] at h0
      obtain ⟨hk, hv⟩ := h0
      rw [if_pos hk, hv]
    · by_cases h1 : k = k1
      · exfalso
        have := hs1.1 (k, s) h0
        rw [h1] at this
        exact lt_irrefl k1 this
      · rw [if_neg h1]
        exact ih hs1.2 h0

/-!  The push invariant: sorted keys, every slot below the size. -/

theorem invMap_nil : InvMap [] := ⟨List.Pairwise.nil, by simp⟩

theorem invMap_pushMap (m : map_type) (n : String) (h : InvMap m) :
    InvMap (pushMap m n) := by
  unfold pushMap
  cases hf : mapFind m n with
  | some s =>
    rw [mapInsert_of_mem m n m.length s h.1 hf]
    exact h
  | none =>
    have hperm := mapInsert_perm m n m.length hf
    refine ⟨sortedKeys_insert m n m.length h.1, ?_⟩
    intro p hp
    rw [hperm.length_eq]
    rcases List.mem_cons.mp (hperm.mem_iff.mp hp) with hp1 | hp1
    · rw [hp1]
      simp
    · calc p.2 < m.length := h.2 p hp1
        _ < ((n, m.length) :: m).length := by simp

theorem invMap_foldPush (names : List String) :
    ∀ m : map_type, InvMap m → InvMap (foldPush m names) := by
  induction names with
  | nil =>
    intro m h
    exact h
  | cons n ns ih =>
    intro m h
    exact ih (pushMap m n) (invMap_pushMap m n h)

theorem foldl_push_mapping (names : List String) :
    ∀ ctx : context, (names.foldl context.push ctx).mapping_ =
      foldPush ctx.mapping_ names := by
  induction names with
  | nil =>
    intro ctx
    rfl
  | cons n ns ih =>
    intro ctx
    exact ih (ctx.push n)

theorem registerAll_mapping (names : List String) :
    (registerAll names).mapping_ = foldPush [] names :=
  foldl_push_mapping names context.empty

theorem invMap_registerAll (names : List String) :
    InvMap (registerAll names).mapping_ := by
  rw [registerAll_mapping]
  exact invMap_foldPush names [] invMap_nil

theorem find_pushMap_isSome (m : map_type) (n k : String) :
    (mapFind (pushMap m n) k).isSome = true ↔
      k = n ∨ (mapFind m k).isSome = true := by
  constructor
  · intro h
    by_cases hk : k = n
    · exact Or.inl hk
    · rw [pushMap, mapFind_insert_ne m n k m.length (fun hh => hk hh.symm)] at h
      exact Or.inr h
  · intro h
    rcases h with h | h
    · rw [h]
      exact find_insert_self_isSome m n m.length
    · by_cases hk : k = n
      · rw [hk]
        exact find_insert_self_isSome m n m.length
      · rw [pushMap, mapFind_insert_ne m n k m.length (fun hh => hk hh.symm)]
        exact h

theorem find_foldPush_isSome (names : List String) :
    ∀ (m : map_type) (k : String), (mapFind (foldPush m names) k).isSome = true ↔
      k ∈ names ∨ (mapFind m k).isSome = true := by
  induction names with
  | nil =>
    intro m k
    simp [foldPush]
  | cons n ns ih =>
    intro m k
    have step : foldPush m (n :: ns) = foldPush (pushMap m n) ns := rfl
    rw [step, ih (pushMap m n) k, find_pushMap_isSome m n k]
    constructor
    · intro h
      rcases h with h | h | h
      · exact Or.inl (List.mem_cons_of_mem _ h)
      · exact Or.inl (by rw [h]; exact List.mem_cons_self _ _)
      · exact Or.inr h
    · intro h
      rcases h with h | h
      · rcases List.mem_cons.mp h with h1 | h1
        · exact Or.inr (Or.inl h1)
        · exact Or.inl h1
      · exact Or.inr (Or.inr h)

theorem find_registerAll_isSome (names : List String) (k : String) :
    (mapFind (registerAll names).mapping_ k).isSome = true ↔ k ∈ names := by
  rw [registerAll_mapping, find_foldPush_isSome names [] k]
  simp [mapFind]

theorem find_pushMap_stable (m : map_type) (n k : String) (s : Nat)
    (hs : SortedKeys m) (h : mapFind m k = some s) :
    mapFind (pushMap m n) k = some s := by
  by_cases hk : n = k
  · rw [pushMap, hk, mapInsert_of_mem m k m.length s hs (hk ▸ h)]
    exact h
  · rw [pushMap, mapFind_insert_ne m n k m.length hk]
    exact h

theorem sorted_pushMap (m : map_type) (n : String) (hs : SortedKeys m) :
    SortedKeys (pushMap m n) :=
  sortedKeys_insert m n m.length hs

theorem find_foldPush_stable (names : List String) :
    ∀ (m : map_type) (k : String) (s : Nat), SortedKeys m →
      mapFind m k = some s → mapFind (foldPush m names) k = some s := by
  induction names with
  | nil =>
    intro m k s _ h
    exact h
  | cons n ns ih =>
    intro m k s hs h
    exact ih (pushMap m n) k s (sorted_pushMap m n hs)
      (find_pushMap_stable m n k s hs h)

theorem find_foldPush_ge (names : List String) :
    ∀ (m : map_type) (k : String) (s : Nat), SortedKeys m →
      mapFind m k = none → mapFind (foldPush m names) k = some s →
      m.length ≤ s := by
  induction names with
  | nil =>
    intro m k s _ hnone h
    have h2 : mapFind m k = some s := h
    rw [hnone] at h2
    exact absurd h2 (by simp)
  | cons n ns ih =>
    intro m k s hs hnone h
    have step : foldPush m (n :: ns) = foldPush (pushMap m n) ns := rfl
    rw [step] at h
    by_cases hk : k = n
    · subst hk
      have hself : mapFind (pushMap m k) k = some m.length :=
        mapFind_insert_self m k m.length hnone
      have := find_foldPush_stable ns (pushMap m k) k m.length
        (sorted_pushMap m k hs) hself
      rw [this] at h
      exact le_of_eq (Option.some.inj h)
    · have hnone2 : mapFind (pushMap m n) k = none := by
        rw [pushMap, mapFind_insert_ne m n k m.length (fun hh => hk hh.symm)]
        exact hnone
      calc m.length ≤ (pushMap m n).length := length_le_mapInsert m n m.length
        _ ≤ s := ih (pushMap m n) k s (sorted_pushMap m n hs) hnone2 h

theorem registerAll_append (ns : List String) (n : String) :
    registerAll (ns ++ [n]) = (registerAll ns).push n := by
  unfold registerAll
  rw [List.foldl_append]
  rfl

theorem registerAll_spec (names : List String) (h : names.Nodup) :
    (registerAll names).mapping_.length = names.length ∧
      ∀ i, ∀ hi : i < names.length,
        mapFind (registerAll names).mapping_ (names.get ⟨i, hi⟩) = some i := by
  induction names using List.reverseRecOn with
  | nil =>
    constructor
    · rfl
    · intro i hi
      exact absurd hi (by simp)
  | append_singleton ns n ih =>
    have hns : ns.Nodup := (List.nodup_append.mp h).1
    have hnot : n ∉ ns := by
      intro hc
      have hd := (List.nodup_append.mp h).2.2
      exact hd hc (by simp)
    obtain ⟨ihlen, ihfind⟩ := ih hns
    have hnone : mapFind (registerAll ns).mapping_ n = none := by
      cases hf : mapFind (registerAll ns).mapping_ n with
      | none => rfl
      | some s =>
        exfalso
        exact hnot ((find_registerAll_isSome ns n).mp (by rw [hf]; rfl))
    have hmap : (registerAll (ns ++ [n])).mapping_ =
        mapInsert (registerAll ns).mapping_ n (registerAll ns).mapping_.length := by
      rw [registerAll_append]
      rfl
    constructor
    · rw [hmap, length_mapInsert_of_none _ _ _ hnone, ihlen]
      simp
    · intro i hi
      rw [List.length_append, List.length_singleton] at hi
      by_cases hilt : i < ns.length
      · have hget : (ns ++ [n]).get ⟨i, by simp; omega⟩ = ns.get ⟨i, hilt⟩ := by
          simp only [List.get_eq_getElem]
          exact List.getElem_append_left hilt
        rw [hmap, hget]
        have hne : n ≠ ns.get ⟨i, hilt⟩ := by
          intro hc
          exact hnot (hc ▸ (List.get_mem ns i hilt))
        rw [mapFind_insert_ne _ _ _ _ hne]
        exact ihfind i hilt
      · have hieq : i = ns.length := by omega
        have hget : (ns ++ [n]).get ⟨i, by simp; omega⟩ = n := by
          subst hieq
          simp [List.get_eq_getElem]
        rw [hmap, hget, mapFind_insert_self _ _ _ hnone, ihlen, hieq]

theorem registerAll_mem_char (names : List String) (h : names.Nodup) :
    ∀ p ∈ (registerAll names).mapping_,
      ∃ i, ∃ hi : i < names.length, p = (names.get ⟨i, hi⟩, i) := by
  intro p hp
  have hs : SortedKeys (registerAll names).mapping_ := (invMap_registerAll names).1
  have hfind : mapFind (registerAll names).mapping_ p.1 = some p.2 :=
    mapFind_of_mem_sorted _ p.1 p.2 hs (by cases p; exact hp)
  have hmem : p.1 ∈ names :=
    (find_registerAll_isSome names p.1).mp (by rw [hfind]; rfl)
  obtain ⟨i, hget⟩ := List.mem_iff_get.mp hmem
  refine ⟨i.1, i.isLt, ?_⟩
  have hspec := (registerAll_spec names h).2 i.1 i.isLt
  have hgi : names.get ⟨i.1, i.isLt⟩ = p.1 := hget
  rw [hgi, hfind] at hspec
  have hp2 : p.2 = i.1 := Option.some.inj hspec
  exact Prod.ext hgi.symm hp2

/-!  Lemmas about rectangles, unions and the envelope fold. -/

theorem rect.contains_refl (a : rect) : a.contains a :=
  ⟨le_refl _, le_refl _, le_refl _, le_refl _⟩

theorem rect.contains_trans (a b c : rect) (h1 : a.contains b)
    (h2 : b.contains c) : a.contains c :=
  ⟨le_trans h1.1 h2.1, le_trans h1.2.1 h2.2.1,
   le_trans h2.2.2.1 h1.2.2.1, le_trans h2.2.2.2 h1.2.2.2⟩

theorem rect.union_contains_left (a b : rect) : (a.union b).contains a :=
  ⟨min_le_left _ _, min_le_left _ _, le_max_left _ _, le_max_left _ _⟩

theorem rect.union_contains_right (a b : rect) : (a.union b).contains b :=
  ⟨min_le_right _ _, min_le_right _ _, le_max_right _ _, le_max_right _ _⟩

theorem rect.contains_union (s a b : rect) (ha : s.contains a)
    (hb : s.contains b) : s.contains (a.union b) :=
  ⟨le_min ha.1 hb.1, le_min ha.2.1 hb.2.1,
   max_le ha.2.2.1 hb.2.2.1, max_le ha.2.2.2 hb.2.2.2⟩

/-- The accumulator of the envelope loop stays a valid rectangle once
initialized: the `box2d` fold equals the `rect` fold of unions. -/
theorem envFold_rect (gs : List geometry_type) :
    ∀ r : rect,
      gs.foldl (fun result h2 => result.expand_to_include h2.envelope)
        (box2d.rect r) =
      box2d.rect (gs.foldl (fun a h2 => a.union h2.env) r) := by
  induction gs with
  | nil =>
    intro r
    rfl
  | cons g gs2 ih =>
    intro r
    exact ih (r.union g.env)

theorem foldUnion_contains_init (gs : List geometry_type) :
    ∀ r : rect, (gs.foldl (fun a h2 => a.union h2.env) r).contains r := by
  induction gs with
  | nil =>
    intro r
    exact rect.contains_refl r
  | cons g gs2 ih =>
    intro r
    exact rect.contains_trans _ _ _ (ih (r.union g.env))
      (rect.union_contains_left r g.env)

theorem foldUnion_contains_mem (gs : List geometry_type) :
    ∀ (r : rect) (g : geometry_type), g ∈ gs →
      (gs.foldl (fun a h2 => a.union h2.env) r).contains g.env := by
  induction gs with
  | nil =>
    intro r g hg
    simp at hg
  | cons g0 gs2 ih =>
    intro r g hg
    rcases List.mem_cons.mp hg with hg1 | hg1
    · rw [hg1]
      exact rect.contains_trans _ _ _ (foldUnion_contains_init gs2 _)
        (rect.union_contains_right r g0.env)
    · exact ih (r.union g0.env) g hg1

theorem foldUnion_least (gs : List geometry_type) :
    ∀ (r s : rect), s.contains r → (∀ g ∈ gs, s.contains g.env) →
      s.contains (gs.foldl (fun a h2 => a.union h2.env) r) := by
  induction gs with
  | nil =>
    intro r s hr _
    exact hr
  | cons g gs2 ih =>
    intro r s hr hg
    exact ih (r.union g.env) s
      (rect.contains_union s r g.env hr (hg g (List.mem_cons_self _ _)))
      (fun g2 hg2 => hg g2 (List.mem_cons_of_mem _ hg2))

/-!  Lemmas about the `to_string` loop. -/

theorem renderLines_isSome (d : List value) (m : map_type) :
    (renderLines d m).isSome = true ↔ ∀ p ∈ m, p.2 < d.length := by
  induction m with
  | nil => simp [renderLines]
  | cons p rest ih =>
    obtain ⟨k, slot⟩ := p
    constructor
    · intro h
      simp only [renderLines] at h
      cases hg : d.get? slot with
      | none =>
        rw [hg] at h
        exact absurd h (by simp)
      | some v =>
        rw [hg] at h
        intro q hq
        rcases List.mem_cons.mp hq with hq1 | hq1
        · rw [hq1]
          exact List.get?_eq_some.mp hg |>.1
        · exact ih.mp (by
            cases hr : renderLines d rest with
            | none => rw [hr] at h; exact absurd h (by simp)
            | some s => simp) q hq1
    · intro h
      simp only [renderLines]
      have hlt : slot < d.length := h (k, slot) (List.mem_cons_self _ _)
      cases hg : d.get? slot with
      | none =>
        exact absurd (List.get?_eq_none.mp hg) (by omega)
      | some v =>
        have := ih.mpr (fun q hq => h q (List.mem_cons_of_mem _ hq))
        cases hr : renderLines d rest with
        | none => rw [hr] at this; exact absurd this (by simp)
        | some s => simp

theorem join_cons (s : String) (l : List String) :
    String.join (s :: l) = s ++ String.join l := by
  have haux : ∀ (l2 : List String) (a b : String),
      l2.foldl (fun r t => r ++ t) (a ++ b) =
        a ++ l2.foldl (fun r t => r ++ t) b := by
    intro l2
    induction l2 with
    | nil =>
      intro a b
      rfl
    | cons c l3 ih =>
      intro a b
      have : a ++ b ++ c = a ++ (b ++ c) := String.append_assoc a b c
      calc (c :: l3).foldl (fun r t => r ++ t) (a ++ b)
          = l3.foldl (fun r t => r ++ t) (a ++ b ++ c) := rfl
        _ = l3.foldl (fun r t => r ++ t) (a ++ (b ++ c)) := by rw [this]
        _ = a ++ l3.foldl (fun r t => r ++ t) (b ++ c) := ih a (b ++ c)
        _ = a ++ (c :: l3).foldl (fun r t => r ++ t) b := rfl
  calc String.join (s :: l) = l.foldl (fun r t => r ++ t) ("" ++ s) := rfl
    _ = l.foldl (fun r t => r ++ t) (s) := by
        rw [(by simp : ("" : String) ++ s = s)]
    _ = l.foldl (fun r t => r ++ t) (s ++ "") := by
        rw [(by simp : s ++ ("" : String) = s)]
    _ = s ++ l.foldl (fun r t => r ++ t) "" := haux l s ""
    _ = s ++ String.join l := rfl

theorem renderLines_eq (d : List value) (m : map_type)
    (h : ∀ p ∈ m, p.2 < d.length) :
    renderLines d m = some (String.join (m.map
      (fun p => "  " ++ p.1 ++ ":" ++ (d.getD p.2 value.null).render ++ "\n"))) := by
  induction m with
  | nil => simp [renderLines, String.join]
  | cons p rest ih =>
    obtain ⟨k, slot⟩ := p
    have hlt : slot < d.length := h (k, slot) (List.mem_cons_self _ _)
    have hrest := ih (fun q hq => h q (List.mem_cons_of_mem _ hq))
    simp only [renderLines]
    cases hg : d.get? slot with
    | none => exact absurd (List.get?_eq_none.mp hg) (by omega)
    | some v =>
      rw [hrest]
      simp only [Option.map_some]
      rw [List.map_cons, join_cons]
      have hv : d.getD slot value.null = v := by
        rw [List.getD_eq_getElem?_getD, ← List.get?_eq_getElem?, hg]
        rfl
      rw [hv]
      simp [String.append_assoc]

/-!  Reduction lemmas for `put` and `get`. -/

theorem put_found (f : feature_impl) (key : String) (v : value) (s : Nat)
    (hf : mapFind f.ctx_.mapping_ key = some s) (hs : s < f.data_.length) :
    f.put key v = ({ f with data_ := f.data_.set s v }, none) := by
  unfold feature_impl.put
  rw [hf]
  simp [hs]

theorem put_fail (f : feature_impl) (key : String) (v : value)
    (h : ∀ s, mapFind f.ctx_.mapping_ key = some s → f.data_.length ≤ s) :
    f.put key v = (f, some keyNotFound) := by
  unfold feature_impl.put
  cases hf : mapFind f.ctx_.mapping_ key with
  | none => rfl
  | some s =>
    have := h s hf
    simp [Nat.not_lt_of_le this]

theorem get_found (f : feature_impl) (key : String) (s : Nat)
    (hf : mapFind f.ctx_.mapping_ key = some s) (hs : s < f.data_.length) :
    f.get key = Except.ok (f.data_.get ⟨s, hs⟩) := by
  unfold feature_impl.get
  rw [hf]
  simp [hs, List.get_eq_getElem]

theorem get_fail (f : feature_impl) (key : String)
    (h : ∀ s, mapFind f.ctx_.mapping_ key = some s → f.data_.length ≤ s) :
    f.get key = Except.error keyNotFound := by
  unfold feature_impl.get
  cases hf : mapFind f.ctx_.mapping_ key with
  | none => rfl
  | some s =>
    have := h s hf
    simp [Nat.not_lt_of_le this]

theorem new_data_length (ctx : context) (id : Int) :
    (feature_impl.new ctx id).data_.length = ctx.mapping_.length := by
  simp [feature_impl.new]

/-!  Claim C1. -/

/-- C1: for a feature record constructed after all schema registrations,
`put(name, v)` followed by `get(name)` returns `v` for every registered
name; and for every unregistered name, both `put(name, v)` and `get(name)`
fail with the key-not-found error (and `put` leaves the record unchanged). -/
theorem C1_put_get_roundtrip (names : List String) (id : Int) (name : String)
    (v : value) :
    (name ∈ names →
      ∃ f2, (feature_impl.new (registerAll names) id).put name v = (f2, none)
        ∧ f2.get name = Except.ok v)
    ∧ (name ∉ names →
      (feature_impl.new (registerAll names) id).put name v
          = (feature_impl.new (registerAll names) id, some keyNotFound)
        ∧ (feature_impl.new (registerAll names) id).get name
          = Except.error keyNotFound) := by
  have hlen : (feature_impl.new (registerAll names) id).data_.length
      = (registerAll names).mapping_.length := new_data_length _ _
  constructor
  · intro hmem
    have hsome : (mapFind (registerAll names).mapping_ name).isSome = true :=
      (find_registerAll_isSome names name).mpr hmem
    obtain ⟨s, hf⟩ := Option.isSome_iff_exists.mp hsome
    have hins : (name, s) ∈ (registerAll names).mapping_ :=
      mapFind_mem _ name s hf
    have hslt : s < (registerAll names).mapping_.length :=
      (invMap_registerAll names).2 (name, s) hins
    have hslt2 : s < (feature_impl.new (registerAll names) id).data_.length := by
      rw [hlen]
      exact hslt
    have hput := put_found (feature_impl.new (registerAll names) id) name v s hf
      hslt2
    refine ⟨_, hput, ?_⟩
    rw [get_found _ name s hf (by simp only [List.length_set]; exact hslt2)]
    congr 1
    simp only [List.get_eq_getElem]
    exact List.getElem_set_self (by simp only [List.length_set]; exact hslt2)
  · intro hnot
    have hnone : mapFind (registerAll names).mapping_ name = none := by
      cases hf : mapFind (registerAll names).mapping_ name with
      | none => rfl
      | some s =>
        exact absurd ((find_registerAll_isSome names name).mp (by rw [hf]; rfl))
          hnot
    constructor
    · refine put_fail _ name v (fun s hf => ?_)
      have hf2 : mapFind (registerAll names).mapping_ name = some s := hf
      rw [hnone] at hf2
      exact absurd hf2 (by simp)
    · refine get_fail _ name (fun s hf => ?_)
      have hf2 : mapFind (registerAll names).mapping_ name = some s := hf
      rw [hnone] at hf2
      exact absurd hf2 (by simp)

/-- Witness for C1 at the schema `["name", "pop"]`: a registered name
round-trips the written value, and an unregistered name fails. -/
theorem C1_witness :
    (∃ f2, (feature_impl.new (registerAll ["name", "pop"]) 1).put "pop"
          (value.integer 2000000) = (f2, none)
        ∧ f2.get "pop" = Except.ok (value.integer 2000000))
    ∧ ((feature_impl.new (registerAll ["name", "pop"]) 1).put "missing"
          (value.integer 2000000)
        = (feature_impl.new (registerAll ["name", "pop"]) 1, some keyNotFound)
      ∧ (feature_impl.new (registerAll ["name", "pop"]) 1).get "missing"
        = Except.error keyNotFound) :=
  ⟨(C1_put_get_roundtrip ["name", "pop"] 1 "pop" (value.integer 2000000)).1
      (by decide),
   (C1_put_get_roundtrip ["name", "pop"] 1 "missing" (value.integer 2000000)).2
      (by decide)⟩

/-!  Claim C2. -/

/-- C2: `put(name, v)` fails with the key-not-found error exactly when the
name is absent from the schema or its resolved slot is not below the
value-vector length; on such a failure the record is returned unchanged; and
`get(name)` fails under exactly the same condition. -/
theorem C2_failure_condition (f : feature_impl) (key : String) (v : value) :
    ((f.put key v).2.isSome = true ↔
      ∀ s, mapFind f.ctx_.mapping_ key = some s → f.data_.length ≤ s)
    ∧ ((f.put key v).2.isSome = true →
        (f.put key v).1 = f ∧ (f.put key v).2 = some keyNotFound)
    ∧ (f.get key = Except.error keyNotFound ↔ (f.put key v).2.isSome = true) := by
  cases hf : mapFind f.ctx_.mapping_ key with
  | none =>
    have hcond : ∀ s, mapFind f.ctx_.mapping_ key = some s →
        f.data_.length ≤ s := by
      intro s hs
      rw [hf] at hs
      exact absurd hs (by simp)
    have hput := put_fail f key v hcond
    have hget := get_fail f key hcond
    rw [hput, hget]
    refine ⟨⟨fun _ s hs => absurd hs (by simp), fun _ => by simp⟩,
      fun _ => ⟨rfl, rfl⟩, by simp⟩
  | some s =>
    by_cases hs : s < f.data_.length
    · have hput := put_found f key v s hf hs
      have hget := get_found f key s hf hs
      rw [hput, hget]
      constructor
      · constructor
        · intro hc
          exact absurd hc (by simp)
        · intro hc
          have := hc s rfl
          omega
      · exact ⟨fun hc => absurd hc (by simp), by simp⟩
    · have hcond : ∀ s2, mapFind f.ctx_.mapping_ key = some s2 →
          f.data_.length ≤ s2 := by
        intro s2 hs2
        rw [hf] at hs2
        have : s = s2 := Option.some.inj hs2
        omega
      have hput := put_fail f key v hcond
      have hget := get_fail f key hcond
      rw [hput, hget]
      refine ⟨⟨fun _ s2 hs2 => ?_, fun _ => by simp⟩,
        fun _ => ⟨rfl, rfl⟩, by simp⟩
      have : s = s2 := Option.some.inj hs2
      omega

/-- Witness for C2: `put` of an unregistered name on a concrete record fails
with the key-not-found error and leaves the record unchanged. -/
theorem C2_witness :
    ((feature_impl.new (registerAll ["a"]) 1).put "b" value.null).1
        = feature_impl.new (registerAll ["a"]) 1
      ∧ ((feature_impl.new (registerAll ["a"]) 1).put "b" value.null).2
        = some keyNotFound :=
  (C2_failure_condition (feature_impl.new (registerAll ["a"]) 1) "b"
    value.null).2.1 (by decide)

/-!  Claim C3. -/

/-- C3 counterexample: registering `"b"` then `"a"` assigns slots 0 and 1 in
registration order, but iterating the schema yields the pairs sorted by
name — `("a", 1)` before `("b", 0)` — not in registration order. -/
theorem C3_counterexample :
    (registerAll ["b", "a"]).mapping_ = [("a", 1), ("b", 0)]
    ∧ (registerAll ["b", "a"]).mapping_ ≠ [("b", 0), ("a", 1)]
    ∧ (registerAll ["b", "a"]).size = 2 := by
  decide

/-- C3 (amended): after registering N distinct names, `slot_count()` equals
N and the schema holds exactly the pairs (i-th name, i) — slots 0..N-1
assigned in registration order — but iteration yields them sorted
lexicographically by name (the `std::map` order), not in registration
order. -/
theorem C3_amended (names : List String) (h : names.Nodup) :
    (registerAll names).size = names.length
    ∧ SortedKeys (registerAll names).mapping_
    ∧ (∀ i, ∀ hi : i < names.length,
        mapFind (registerAll names).mapping_ (names.get ⟨i, hi⟩) = some i)
    ∧ ∀ p ∈ (registerAll names).mapping_,
        ∃ i, ∃ hi : i < names.length, p = (names.get ⟨i, hi⟩, i) :=
  ⟨(registerAll_spec names h).1, (invMap_registerAll names).1,
   (registerAll_spec names h).2, registerAll_mem_char names h⟩

/-- Witness for C3 (amended) at the distinct registrations `["b", "a"]`. -/
theorem C3_witness :
    (registerAll ["b", "a"]).size = (["b", "a"] : List String).length
    ∧ mapFind (registerAll ["b", "a"]).mapping_
        ((["b", "a"] : List String).get ⟨0, by decide⟩) = some 0 :=
  ⟨(C3_amended ["b", "a"] (by decide)).1,
   (C3_amended ["b", "a"] (by decide)).2.2.1 0 (by decide)⟩

/-!  Claims C4 and C9: re-registering an existing name. -/

theorem context_eq_of_mapping (c1 c2 : context)
    (h : c1.mapping_ = c2.mapping_) : c1 = c2 := by
  cases c1
  cases c2
  cases h
  rfl

/-- C4 counterexample: pushing `"a"` twice does not overwrite the entry —
the claim would make the second push rebind `"a"` to slot 1 (the map's size
at that moment), but the entry keeps slot 0. -/
theorem C4_counterexample :
    mapFind (registerAll ["a", "a"]).mapping_ "a" = some 0
    ∧ ¬ mapFind (registerAll ["a", "a"]).mapping_ "a" = some 1
    ∧ (registerAll ["a", "a"]).mapping_ = [("a", 0)] := by
  decide

/-- C4 (amended): registering a name that is already present in the schema
silently leaves that name's slot-mapping entry unchanged — the slot keeps
its original value and the schema size does not change (`std::map::insert`
does not overwrite an existing key). -/
theorem C4_amended (names : List String) (name : String) (s : Nat)
    (h : mapFind (registerAll names).mapping_ name = some s) :
    mapFind ((registerAll names).push name).mapping_ name = some s
    ∧ ((registerAll names).push name).size = (registerAll names).size := by
  have hm : ((registerAll names).push name).mapping_
      = (registerAll names).mapping_ :=
    mapInsert_of_mem _ name _ s (invMap_registerAll names).1 h
  constructor
  · rw [hm]
    exact h
  · unfold context.size
    rw [hm]

/-- Witness for C4 (amended): re-pushing `"a"` keeps slot 0 and the size. -/
theorem C4_witness :
    mapFind ((registerAll ["a"]).push "a").mapping_ "a" = some 0
    ∧ ((registerAll ["a"]).push "a").size = (registerAll ["a"]).size :=
  C4_amended ["a"] "a" 0 (by decide)

/-- C9: calling `push` with a name already present in the schema leaves the
schema completely unchanged — same entries, same slots, same size
(`std::map::insert` does not overwrite an existing key). -/
theorem C9_push_existing_noop (names : List String) (name : String)
    (h : (mapFind (registerAll names).mapping_ name).isSome = true) :
    (registerAll names).push name = registerAll names := by
  obtain ⟨s, hf⟩ := Option.isSome_iff_exists.mp h
  exact context_eq_of_mapping _ _
    (mapInsert_of_mem _ name _ s (invMap_registerAll names).1 hf)

/-- Witness for C9: re-pushing `"x"` on the schema `["x", "y"]` returns the
identical schema. -/
theorem C9_witness :
    (registerAll ["x", "y"]).push "x" = registerAll ["x", "y"] :=
  C9_push_existing_noop ["x", "y"] "x" (by decide)

/-!  Claim C5. -/

/-- C5 counterexample: with registration order `"b"`, `"a"`, `to_string`
renders the `"a"` line first (name-sorted map order) while the claim's
rendering (`specDescribe`) lists `"b"` first; and on a record whose schema
grew after construction, `to_string` performs an out-of-range access
(modelled as `none`) instead of skipping the out-of-range name as the claim
states. -/
theorem C5_counterexample :
    (feature_impl.new (registerAll ["b", "a"]) 7).to_string
        ≠ some (specDescribe (feature_impl.new (registerAll ["b", "a"]) 7))
    ∧ (feature_impl.new (registerAll ["b", "a"]) 7).to_string
        = some "Feature (\n  a:null\n  b:null\n)\n"
    ∧ specDescribe (feature_impl.new (registerAll ["b", "a"]) 7)
        = "b: null\na: null\n"
    ∧ (growSchema (feature_impl.new (registerAll ["a"]) 1) "b").to_string = none
    ∧ specDescribe (growSchema (feature_impl.new (registerAll ["a"]) 1) "b")
        = "a: null\n" := by
  decide

/-- C5 (amended): `to_string` renders, between `"Feature ("` and `")"`
lines, one `"  name:value"` line per registered name in the map's
name-sorted iteration order (not registration order), pairing each name with
the value at its resolved slot; the slot access has no range test, so the
rendering is only defined (and `to_string` only returns a value) when every
registered slot is below the record's value-sequence length — a schema grown
since construction makes it an out-of-range access rather than skipping. -/
theorem C5_amended (names : List String) (f : feature_impl)
    (hctx : f.ctx_ = registerAll names) :
    SortedKeys f.ctx_.mapping_
    ∧ ((f.to_string).isSome = true ↔
        ∀ p ∈ f.ctx_.mapping_, p.2 < f.data_.length)
    ∧ ((∀ p ∈ f.ctx_.mapping_, p.2 < f.data_.length) →
        f.to_string = some ("Feature (\n" ++ String.join (f.ctx_.mapping_.map
          (fun p => "  " ++ p.1 ++ ":" ++ (f.data_.getD p.2 value.null).render
            ++ "\n")) ++ ")\n")) := by
  refine ⟨by rw [hctx]; exact (invMap_registerAll names).1, ?_, ?_⟩
  · unfold feature_impl.to_string
    rw [Option.isSome_map']
    exact renderLines_isSome f.data_ f.ctx_.mapping_
  · intro h
    unfold feature_impl.to_string
    rw [renderLines_eq f.data_ f.ctx_.mapping_ h]
    rfl

/-- Witness for C5 (amended) on the schema `["name", "pop"]`. -/
theorem C5_witness :
    (feature_impl.new (registerAll ["name", "pop"]) 9).to_string
      = some ("Feature (\n" ++ String.join
          ((feature_impl.new (registerAll ["name", "pop"]) 9).ctx_.mapping_.map
            (fun p => "  " ++ p.1 ++ ":"
              ++ ((feature_impl.new (registerAll ["name", "pop"])
                    9).data_.getD p.2 value.null).render ++ "\n")) ++ ")\n") :=
  (C5_amended ["name", "pop"] (feature_impl.new (registerAll ["name", "pop"]) 9)
    rfl).2.2 (by decide)

/-!  Claim C6. -/

/-- C6: `envelope()` returns the uninitialized sentinel when the record owns
no geometries; with at least one geometry it returns a valid rectangle that
is the union (least upper bound under containment) of the owned geometries'
bounding boxes, built by initializing the accumulator from the first box and
expanding with each later box. -/
theorem C6_envelope (f : feature_impl) :
    (f.geom_cont_ = [] → f.envelope = box2d.uninit)
    ∧ ∀ g gs, f.geom_cont_ = g :: gs →
      ∃ R : rect, f.envelope = box2d.rect R
        ∧ (∀ h2 ∈ f.geom_cont_, R.contains h2.env)
        ∧ ∀ S : rect, (∀ h2 ∈ f.geom_cont_, S.contains h2.env) →
            S.contains R := by
  constructor
  · intro h
    unfold feature_impl.envelope
    rw [h]
  · intro g gs h
    refine ⟨gs.foldl (fun a h2 => a.union h2.env) g.env, ?_, ?_, ?_⟩
    · unfold feature_impl.envelope
      rw [h]
      exact envFold_rect gs g.env
    · intro h2 hmem
      rw [h] at hmem
      rcases List.mem_cons.mp hmem with h1 | h1
      · rw [h1]
        exact foldUnion_contains_init gs g.env
      · exact foldUnion_contains_mem gs g.env h2 h1
    · intro S hS
      rw [h] at hS
      exact foldUnion_least gs g.env S (hS g (List.mem_cons_self _ _))
        (fun g2 hg2 => hS g2 (List.mem_cons_of_mem _ hg2))

/-- Witness for C6 at the spec's example: boxes `[0,0]-[1,1]` and
`[2,2]-[3,3]` give the envelope `[0,0]-[3,3]`; the empty record gives the
uninitialized sentinel. -/
theorem C6_witness :
    (((feature_impl.new (registerAll []) 0).add_geometry
        ⟨⟨0, 0, 1, 1⟩⟩).add_geometry ⟨⟨2, 2, 3, 3⟩⟩).envelope
      = box2d.rect ⟨0, 0, 3, 3⟩
    ∧ (feature_impl.new (registerAll []) 0).envelope = box2d.uninit
    ∧ ∃ R : rect,
        (((feature_impl.new (registerAll []) 0).add_geometry
            ⟨⟨0, 0, 1, 1⟩⟩).add_geometry ⟨⟨2, 2, 3, 3⟩⟩).envelope = box2d.rect R
        ∧ (∀ h2 ∈ (((feature_impl.new (registerAll []) 0).add_geometry
            ⟨⟨0, 0, 1, 1⟩⟩).add_geometry ⟨⟨2, 2, 3, 3⟩⟩).geom_cont_,
              R.contains h2.env)
        ∧ ∀ S : rect, (∀ h2 ∈ (((feature_impl.new (registerAll []) 0).add_geometry
            ⟨⟨0, 0, 1, 1⟩⟩).add_geometry ⟨⟨2, 2, 3, 3⟩⟩).geom_cont_,
              S.contains h2.env) → S.contains R :=
  ⟨by decide,
   (C6_envelope (feature_impl.new (registerAll []) 0)).1 rfl,
   (C6_envelope _).2 ⟨⟨0, 0, 1, 1⟩⟩ [⟨⟨2, 2, 3, 3⟩⟩] rfl⟩

/-!  Claim C7. -/

/-- C7: constructing a feature record from a schema and an id yields a value
sequence whose length is the schema's slot count at that moment, every slot
holding the null default, and the given id. -/
theorem C7_construction (ctx : context) (id : Int) :
    (feature_impl.new ctx id).size = ctx.size
    ∧ (feature_impl.new ctx id).id = id
    ∧ ∀ i, ∀ h : i < (feature_impl.new ctx id).data_.length,
        (feature_impl.new ctx id).data_.get ⟨i, h⟩ = value.null := by
  refine ⟨by simp [feature_impl.size, feature_impl.new, context.size], rfl, ?_⟩
  intro i h
  simp [feature_impl.new, List.get_eq_getElem]

/-- Witness for C7 on the schema `["name", "pop"]` with id 5. -/
theorem C7_witness :
    (feature_impl.new (registerAll ["name", "pop"]) 5).size
        = (registerAll ["name", "pop"]).size
    ∧ (feature_impl.new (registerAll ["name", "pop"]) 5).id = 5
    ∧ (feature_impl.new (registerAll ["name", "pop"]) 5).data_.get
        ⟨1, by decide⟩ = value.null :=
  ⟨(C7_construction (registerAll ["name", "pop"]) 5).1,
   (C7_construction (registerAll ["name", "pop"]) 5).2.1,
   (C7_construction (registerAll ["name", "pop"]) 5).2.2 1 (by decide)⟩

/-!  Claim C8. -/

theorem grow_ctx_mapping (growth : List String) :
    ∀ f : feature_impl, (growth.foldl growSchema f).ctx_.mapping_
      = foldPush f.ctx_.mapping_ growth := by
  induction growth with
  | nil =>
    intro f
    rfl
  | cons n ns ih =>
    intro f
    exact ih (growSchema f n)

theorem grow_data (growth : List String) :
    ∀ f : feature_impl, (growth.foldl growSchema f).data_ = f.data_ := by
  induction growth with
  | nil =>
    intro f
    rfl
  | cons n ns ih =>
    intro f
    exact ih (growSchema f n)

/-- C8: `has_key(name)` is true exactly when the schema contains the name,
independently of the record's value-sequence length; in particular, for a
name registered only after the record was constructed, `has_key` is true
while `get` still fails with the key-not-found error. -/
theorem C8_has_key (names growth : List String) (id : Int) (name : String) :
    ((growth.foldl growSchema (feature_impl.new (registerAll names) id)).has_key
        name = true ↔ name ∈ names ∨ name ∈ growth)
    ∧ (name ∉ names → name ∈ growth →
        (growth.foldl growSchema
            (feature_impl.new (registerAll names) id)).has_key name = true
        ∧ (growth.foldl growSchema
            (feature_impl.new (registerAll names) id)).get name
          = Except.error keyNotFound) := by
  have hmap : (growth.foldl growSchema
      (feature_impl.new (registerAll names) id)).ctx_.mapping_
        = foldPush (registerAll names).mapping_ growth :=
    grow_ctx_mapping growth (feature_impl.new (registerAll names) id)
  have hdata : (growth.foldl growSchema
      (feature_impl.new (registerAll names) id)).data_
        = (feature_impl.new (registerAll names) id).data_ :=
    grow_data growth (feature_impl.new (registerAll names) id)
  have hiff : (growth.foldl growSchema
      (feature_impl.new (registerAll names) id)).has_key name = true ↔
        name ∈ names ∨ name ∈ growth := by
    unfold feature_impl.has_key
    rw [hmap, find_foldPush_isSome growth (registerAll names).mapping_ name]
    rw [find_registerAll_isSome names name]
    exact Or.comm
  refine ⟨hiff, fun hnotmem hgrow => ⟨hiff.mpr (Or.inr hgrow), ?_⟩⟩
  have hnone : mapFind (registerAll names).mapping_ name = none := by
    cases hf : mapFind (registerAll names).mapping_ name with
    | none => rfl
    | some s =>
      exact absurd ((find_registerAll_isSome names name).mp (by rw [hf]; rfl))
        hnotmem
  refine get_fail _ name (fun s hf => ?_)
  have hf2 : mapFind (foldPush (registerAll names).mapping_ growth) name
      = some s := by
    rw [← hmap]
    exact hf
  have hge : (registerAll names).mapping_.length ≤ s :=
    find_foldPush_ge growth (registerAll names).mapping_ name s
      (invMap_registerAll names).1 hnone hf2
  have hlen : (growth.foldl growSchema
      (feature_impl.new (registerAll names) id)).data_.length
        = (registerAll names).mapping_.length := by
    rw [hdata]
    exact new_data_length _ _
  rw [hlen]
  exact hge

/-- Witness for C8: after the schema `["a"]` grows by `"b"`, the record
reports `has_key "b"` true while `get "b"` fails. -/
theorem C8_witness :
    ((["b"] : List String).foldl growSchema
        (feature_impl.new (registerAll ["a"]) 1)).has_key "b" = true
    ∧ ((["b"] : List String).foldl growSchema
        (feature_impl.new (registerAll ["a"]) 1)).get "b"
      = Except.error keyNotFound :=
  (C8_has_key ["a"] ["b"] 1 "b").2 (by decide) (by decide)

/-!  Claim C10. -/

/-- C10: a successful `put(name, v)` overwrites exactly the slot the schema
maps the name to — every other value slot, the id, the geometry collection,
the raster reference, and the shared schema are unchanged. -/
theorem C10_put_frame (f : feature_impl) (key : String) (v : value)
    (f2 : feature_impl) (h : f.put key v = (f2, none)) :
    f2.id_ = f.id_ ∧ f2.ctx_ = f.ctx_ ∧ f2.geom_cont_ = f.geom_cont_
    ∧ f2.raster_ = f.raster_ ∧ f2.data_.length = f.data_.length
    ∧ ∃ s, mapFind f.ctx_.mapping_ key = some s ∧ s < f.data_.length
      ∧ f2.data_.getD s value.null = v
      ∧ ∀ j, j ≠ s → f2.data_.getD j value.null = f.data_.getD j value.null := by
  cases hf : mapFind f.ctx_.mapping_ key with
  | none =>
    have hcond : ∀ s2, mapFind f.ctx_.mapping_ key = some s2 →
        f.data_.length ≤ s2 := by
      intro s2 hs2
      rw [hf] at hs2
      exact absurd hs2 (by simp)
    rw [put_fail f key v hcond] at h
    exact absurd (congrArg Prod.snd h) (by simp)
  | some s =>
    by_cases hs : s < f.data_.length
    · rw [put_found f key v s hf hs] at h
      have hfe : f2 = { f with data_ := f.data_.set s v } :=
        (congrArg Prod.fst h).symm
      subst hfe
      refine ⟨rfl, rfl, rfl, rfl, by simp, s, rfl, hs, ?_, ?_⟩
      · simp [List.getD_eq_getElem?_getD, List.getElem?_set_self hs]
      · intro j hj
        simp [List.getD_eq_getElem?_getD,
          List.getElem?_set_ne (fun hc => hj hc.symm)]
    · rw [put_fail f key v (fun s2 hs2 => by
        rw [hf] at hs2
        have : s = s2 := Option.some.inj hs2
        omega)] at h
      exact absurd (congrArg Prod.snd h) (by simp)

/-- Witness for C10: a successful concrete `put` on the slot of `"b"` leaves
the id, geometries, raster, schema and the other slot unchanged. -/
theorem C10_witness :
    (⟨3, registerAll ["a", "b"], [], none,
        [value.null, value.text "X"]⟩ : feature_impl).id_
      = (feature_impl.new (registerAll ["a", "b"]) 3).id_
    ∧ (⟨3, registerAll ["a", "b"], [], none,
        [value.null, value.text "X"]⟩ : feature_impl).ctx_
      = (feature_impl.new (registerAll ["a", "b"]) 3).ctx_
    ∧ (⟨3, registerAll ["a", "b"], [], none,
        [value.null, value.text "X"]⟩ : feature_impl).geom_cont_
      = (feature_impl.new (registerAll ["a", "b"]) 3).geom_cont_
    ∧ (⟨3, registerAll ["a", "b"], [], none,
        [value.null, value.text "X"]⟩ : feature_impl).raster_
      = (feature_impl.new (registerAll ["a", "b"]) 3).raster_
    ∧ (⟨3, registerAll ["a", "b"], [], none,
        [value.null, value.text "X"]⟩ : feature_impl).data_.length
      = (feature_impl.new (registerAll ["a", "b"]) 3).data_.length
    ∧ ∃ s, mapFind (feature_impl.new
          (registerAll ["a", "b"]) 3).ctx_.mapping_ "b" = some s
        ∧ s < (feature_impl.new (registerAll ["a", "b"]) 3).data_.length
        ∧ (⟨3, registerAll ["a", "b"], [], none,
            [value.null, value.text "X"]⟩ : feature_impl).data_.getD s
              value.null = value.text "X"
        ∧ ∀ j, j ≠ s → (⟨3, registerAll ["a", "b"], [], none,
            [value.null, value.text "X"]⟩ : feature_impl).data_.getD j
              value.null
            = (feature_impl.new (registerAll ["a", "b"]) 3).data_.getD j
              value.null :=
  C10_put_frame (feature_impl.new (registerAll ["a", "b"]) 3) "b"
    (value.text "X")
    ⟨3, registerAll ["a", "b"], [], none, [value.null, value.text "X"]⟩
    (by decide)

end Mapnik
